import Mathlib

/-!
Shallow embedding of `src/bitmap_tree.hpp` (namespace `bmt`).

The header defines a `w`-ary bitmap tree over an unsigned word type `T` with
`w = 8 * sizeof(T)` bits (`bits_per_word = branching_factor = w`).  Machine
words are modelled as `Nat`; every word written by the source stays below
`2 ^ w`, and the `u64_t` bookkeeping fields (`levels`, `allocated_resources`,
`current_max_size`) are modelled as unbounded `Nat`.  Heap pointers are
modelled by `Option` children inside the node; absent (never-materialized)
children are `none`.  The `for(;;)` descent loops of the source are modelled
with an explicit fuel argument; `levels + 2` fuel is enough for every tree the
source can build, and the out-of-fuel branch is unreachable there.
-/

namespace BitmapTree

/-- Value of the all-ones word `~T(0)` of the `w`-bit word type `T`. -/
def allOnes (w : Nat) : Nat := 2 ^ w - 1

/-- Source helper `set_bit`: `n |= T(1) << bit`. -/
def set_bit (n bit : Nat) : Nat := n ||| 1 <<< bit

/-- Source helper `clear_bit`: `n &= ~(T(1) << bit)`; in `w`-bit arithmetic
the complement of `T(1) << bit` is `allOnes w ^^^ (1 <<< bit)`. -/
def clear_bit (w n bit : Nat) : Nat := n &&& (allOnes w ^^^ 1 <<< bit)

/-- Source helper `test_bit`: `n & (T(1) << bit)` converted to `bool`. -/
def test_bit (n bit : Nat) : Bool := n.testBit bit

/-- Source `node_t<T>`, tagged by its `is_leaf` flag.  A leaf holds the
`bits` array of `branching_factor` words; an internal node holds the
`allocated_branches` bitmap and the `branches` pointer array (children that
were never materialized are `none`).  The `unset_branches` field of an
internal node created by `allocate_at` is never written by the source
(uninitialized memory); it is modelled as `none`. -/
inductive Node : Type where
  | leaf (unset_branches : Nat) (bits : List Nat) : Node
  | internal (unset_branches : Option Nat) (allocated_branches : Nat)
      (branches : List (Option Node)) : Node

/-- Read a node's `unset_branches` word (`none` when it was never written). -/
def unsetBitsOf : Node → Option Nat
  | .leaf u _ => some u
  | .internal u _ _ => u

/-- Read a leaf's `bits` array (empty for an internal node, whose union member
is the pointer array instead). -/
def leafBitsOf : Node → List Nat
  | .leaf _ bits => bits
  | .internal _ _ _ => []

/-- Read an internal node's `branches` array. -/
def branchesOf : Node → List (Option Node)
  | .leaf _ _ => []
  | .internal _ _ br => br

/-- Source `node_t<T>::init_leaf`: every word all-ones (all indices free) and
`unset_branches = ~T(0)`. -/
def init_leaf (w : Nat) : Node :=
  .leaf (allOnes w) (List.replicate w (allOnes w))

/-- The node `allocate_at` materializes for a missing branch: a fresh leaf
when `current_level == 0`, otherwise an internal node with
`allocated_branches = 0` (its `unset_branches` stays uninitialized). -/
def freshNode (w level : Nat) : Node :=
  if level = 0 then init_leaf w else .internal none 0 (List.replicate w none)

/-- Source `tree_t<T>` state. -/
structure Tree : Type where
  root : Node
  levels : Nat
  allocated_resources : Nat
  current_max_size : Nat

/-- Source constructor `tree_t::tree_t()`: one fresh leaf,
`current_max_size = branching_factor * bits_per_word = w * w`. -/
def mkTree (w : Nat) : Tree :=
  { root := init_leaf w
    levels := 0
    allocated_resources := 0
    current_max_size := w * w }

/-- One iteration of the `while` loop in `tree_t::move_max_size`: wrap a new
internal root whose branch 0 is the old root, with `allocated_branches = 1`
and `unset_branches = (root->unset_branches == ~T(0)) ? ~T(0) : ~T(1)`
(`~T(1) = allOnes w ^^^ 1`); an uninitialized old summary compares unequal. -/
def wrapRoot (w : Nat) (t : Tree) : Tree :=
  { root := .internal
      (some (if unsetBitsOf t.root = some (allOnes w) then allOnes w
             else allOnes w ^^^ 1))
      1 (some t.root :: List.replicate (w - 1) none)
    levels := t.levels + 1
    allocated_resources := t.allocated_resources
    current_max_size := t.current_max_size * w }

/-- Fuel-bounded form of the `while (current_max_size <= idx)` loop of
`tree_t::move_max_size`. -/
def move_loop (w idx : Nat) : Nat → Tree → Tree
  | 0, t => t
  | fuel + 1, t =>
      if t.current_max_size ≤ idx then move_loop w idx fuel (wrapRoot w t)
      else t

/-- Source `tree_t::move_max_size(T idx)`: the parameter has type `T`, so the
`u64_t` argument from `allocate_at` is reduced mod `2 ^ w` at the call.  Fuel
`idx % 2 ^ w + 1` always suffices: each wrap at least doubles
`current_max_size` (the loop body is reached only while the capacity is below
the target, and every capacity the source builds is positive with `w ≥ 2`). -/
def move_max_size (w : Nat) (t : Tree) (idx : Nat) : Tree :=
  move_loop w (idx % 2 ^ w) (idx % 2 ^ w + 1) t

/-- The `for(;;)` descent of `tree_t::allocate_at`, on one node.  Arguments:
fuel, node, `subtree_size` before the division at the top of the iteration,
remaining `idx`, `current_level`.  Returns the updated node and whether
`allocated_resources` was incremented (the leaf bit was still set).  The
`u64_t` counter `current_level--` wraps below zero in the source; it is only
compared against 0 when materializing, which never happens below level 0 on
trees the source builds, so `Nat` truncation is faithful there. -/
def alloc_step (w : Nat) : Nat → Node → Nat → Nat → Nat → Node × Bool
  | 0, n, _, _, _ => (n, false)
  | _ + 1, .leaf u bits, subtree_size, idx, _ =>
      let ss := subtree_size / w
      let bucket := idx / ss
      let bi := idx % ss
      let word := bits.getD bucket 0
      (.leaf u (bits.set bucket (clear_bit w word bi)), test_bit word bi)
  | fuel + 1, .internal u ab br, subtree_size, idx, lvl =>
      let ss := subtree_size / w
      let bucket := idx / ss
      let idx2 := idx % ss
      if test_bit ab bucket then
        match br.getD bucket none with
        | some child =>
            let r := alloc_step w fuel child ss idx2 (lvl - 1)
            (.internal u ab (br.set bucket (some r.1)), r.2)
        | none => (.internal u ab br, false)
      else
        let r := alloc_step w fuel (freshNode w lvl) ss idx2 (lvl - 1)
        (.internal u (set_bit ab bucket) (br.set bucket (some r.1)), r.2)

/-- Source `tree_t::allocate_at(u64_t idx)`: grow while the capacity is too
small, then descend, materializing missing branches, and clear the leaf bit,
counting an increment only if the bit was still set. -/
def allocate_at (w : Nat) (t : Tree) (idx : Nat) : Tree :=
  let t1 := if t.current_max_size ≤ idx then move_max_size w t idx else t
  let r := alloc_step w (t1.levels + 2) t1.root t1.current_max_size idx t1.levels
  { root := r.1
    levels := t1.levels
    allocated_resources := t1.allocated_resources + (if r.2 then 1 else 0)
    current_max_size := t1.current_max_size }

/-- The `for(;;)` descent of `tree_t::is_allocated`, on one node. -/
def is_alloc_step (w : Nat) : Nat → Node → Nat → Nat → Bool
  | 0, _, _, _ => false
  | _ + 1, .leaf _ bits, subtree_size, idx =>
      let ss := subtree_size / w
      !(test_bit (bits.getD (idx / ss) 0) (idx % ss))
  | fuel + 1, .internal _ ab br, subtree_size, idx =>
      let ss := subtree_size / w
      if test_bit ab (idx / ss) then
        match br.getD (idx / ss) none with
        | some child => is_alloc_step w fuel child ss (idx % ss)
        | none => false
      else false

/-- Source `tree_t::is_allocated(u64_t idx) const`. -/
def is_allocated (w : Nat) (t : Tree) (idx : Nat) : Bool :=
  if t.current_max_size ≤ idx then false
  else is_alloc_step w (t.levels + 2) t.root t.current_max_size idx

/-- Source `tree_t::allocate()`: the body is `return T();` — it returns 0 and
leaves the tree untouched. -/
def allocate (w : Nat) (t : Tree) : Tree × Nat := (t, 0)

/-- Source `tree_t::deallocate(T idx)`: the body is empty. -/
def deallocate (w : Nat) (t : Tree) (idx : Nat) : Tree := t

/-- Public mutating operations of the tree (`is_allocated` is `const`). -/
inductive Op : Type where
  | allocAt (idx : Nat) : Op
  | alloc : Op
  | dealloc (idx : Nat) : Op

/-- Run one public operation. -/
def applyOp (w : Nat) (op : Op) (t : Tree) : Tree :=
  match op with
  | .allocAt idx => allocate_at w t idx
  | .alloc => (allocate w t).1
  | .dealloc idx => deallocate w t idx

/-- Run a sequence of public operations. -/
def runOps (w : Nat) (ops : List Op) (t : Tree) : Tree :=
  ops.foldl (fun s op => applyOp w op s) t

/-- Tree states reachable from a fresh tree by public operations. -/
def Reachable (w : Nat) (t : Tree) : Prop :=
  ∃ ops : List Op, t = runOps w ops (mkTree w)

/-! List and bit-arithmetic helper lemmas. -/

theorem getD_set_self {α : Type} (l : List α) (n : Nat) (a d : α) (h : n < l.length) :
    (l.set n a).getD n d = a := by
  rw [List.getD_eq_getElem?_getD, List.getElem?_set_self h, Option.getD_some]

theorem getD_set_ne {α : Type} (l : List α) (n m : Nat) (a d : α) (h : n ≠ m) :
    (l.set n a).getD m d = l.getD m d := by
  rw [List.getD_eq_getElem?_getD, List.getElem?_set_ne h, ← List.getD_eq_getElem?_getD]

theorem getD_replicate {α : Type} (n i : Nat) (a d : α) :
    (List.replicate n a).getD i d = if i < n then a else d := by
  rw [List.getD_eq_getElem?_getD, List.getElem?_replicate]
  split <;> rfl

theorem getD_of_length_le {α : Type} (l : List α) (n : Nat) (d : α) (h : l.length ≤ n) :
    l.getD n d = d := by
  rw [List.getD_eq_getElem?_getD, List.getElem?_eq_none h, Option.getD_none]

theorem getD_none_mem {α : Type} (l : List (Option α)) (n : Nat) (c : α)
    (h : l.getD n none = some c) : some c ∈ l := by
  rw [List.getD_eq_getElem?_getD] at h
  cases hn : l[n]? with
  | none => rw [hn, Option.getD_none] at h; cases h
  | some x =>
      rw [hn, Option.getD_some] at h
      subst h
      exact List.getElem?_mem hn

theorem shiftLeft_one_eq (i : Nat) : (1 : Nat) <<< i = 2 ^ i := by
  rw [Nat.shiftLeft_eq, one_mul]

theorem testBit_allOnes {w i : Nat} (h : i < w) : (allOnes w).testBit i = true := by
  simp [allOnes, Nat.testBit_two_pow_sub_one, h]

theorem test_bit_set_bit_self (n i : Nat) : test_bit (set_bit n i) i = true := by
  simp [test_bit, set_bit, Nat.testBit_or, shiftLeft_one_eq, Nat.testBit_two_pow_self]

theorem test_bit_set_bit_ne (n i j : Nat) (h : i ≠ j) :
    test_bit (set_bit n i) j = test_bit n j := by
  simp [test_bit, set_bit, Nat.testBit_or, shiftLeft_one_eq, Nat.testBit_two_pow_of_ne h]

theorem test_bit_clear_bit_self (w n i : Nat) (h : i < w) :
    test_bit (clear_bit w n i) i = false := by
  simp [test_bit, clear_bit, Nat.testBit_and, Nat.testBit_xor, shiftLeft_one_eq, allOnes,
    Nat.testBit_two_pow_sub_one, Nat.testBit_two_pow_self, h]

theorem test_bit_clear_bit_ne (w n i j : Nat) (hj : j < w) (h : i ≠ j) :
    test_bit (clear_bit w n i) j = test_bit n j := by
  simp [test_bit, clear_bit, Nat.testBit_and, Nat.testBit_xor, shiftLeft_one_eq, allOnes,
    Nat.testBit_two_pow_sub_one, Nat.testBit_two_pow_of_ne h, hj]

theorem test_bit_one (b : Nat) : test_bit 1 b = decide (0 = b) := by
  have h1 : (1 : Nat) = 2 ^ 0 := rfl
  rw [test_bit, h1, Nat.testBit_two_pow]

theorem test_bit_zero_word (b : Nat) : test_bit 0 b = false := by
  simp [test_bit]

theorem pow_div_w {w m : Nat} (hw : 0 < w) (hm : 1 ≤ m) :
    w ^ m / w = w ^ (m - 1) := by
  have h1 : w ^ m / w = w ^ m / w ^ 1 := by rw [pow_one]
  rw [h1, Nat.pow_div hm hw]

theorem pow_split {w m : Nat} (hm : 1 ≤ m) : w ^ m = w ^ (m - 1) * w := by
  have : m - 1 + 1 = m := Nat.sub_add_cancel hm
  rw [← this, pow_succ, Nat.add_sub_cancel]

theorem bucket_lt {w m idx : Nat} (hw : 0 < w) (hm : 1 ≤ m) (h : idx < w ^ m) :
    idx / w ^ (m - 1) < w := by
  rw [Nat.div_lt_iff_lt_mul (pow_pos hw _)]
  rw [mul_comm, ← pow_split hm]
  exact h

theorem bucket_ge {w m idx : Nat} (hw : 0 < w) (hm : 1 ≤ m) (h : w ^ m ≤ idx) :
    w ≤ idx / w ^ (m - 1) := by
  rw [Nat.le_div_iff_mul_le (pow_pos hw _)]
  rw [mul_comm, ← pow_split hm]
  exact h

theorem eq_of_div_mod_eq {a b d : Nat} (h1 : a / d = b / d) (h2 : a % d = b % d) :
    a = b := by
  have ha := Nat.div_add_mod a d
  have hb := Nat.div_add_mod b d
  rw [h1, h2] at ha
  exact ha.symm.trans hb

/-! Structural well-formedness. -/

/-- Well-formedness of a node relative to the exponent `m` of the
`subtree_size = w ^ m` it is entered with during a descent: arrays have
length `w`; a leaf sits at `m ∈ {1, 2}` (it serves `w ^ 2` indices as the
root or as a wrapped old root, and `w` indices when materialized below an
internal node at level 0); an internal node sits at `m ≥ 2`; a set
`allocated_branches` bit guards a present child; children are well-formed one
exponent lower.  Every tree the source builds satisfies this. -/
inductive NodeOK (w : Nat) : Node → Nat → Prop where
  | leaf (u : Nat) (bits : List Nat) (m : Nat) (hlen : bits.length = w)
      (h1 : 1 ≤ m) (h2 : m ≤ 2) : NodeOK w (.leaf u bits) m
  | internal (u : Option Nat) (ab : Nat) (br : List (Option Node)) (m : Nat)
      (hlen : br.length = w) (h2 : 2 ≤ m)
      (hguard : ∀ i, i < w → test_bit ab i = true → ∃ c, br.getD i none = some c)
      (hch : ∀ c, some c ∈ br → NodeOK w c (m - 1)) :
      NodeOK w (.internal u ab br) m

/-- Well-formedness of a whole tree state. -/
structure TreeOK (w : Nat) (t : Tree) : Prop where
  hw : 2 ≤ w
  root_ok : NodeOK w t.root (t.levels + 2)
  cap : t.current_max_size = w ^ (t.levels + 2)

theorem NodeOK.one_le {w : Nat} {n : Node} {m : Nat} (h : NodeOK w n m) : 1 ≤ m := by
  cases h with
  | leaf _ _ _ _ h1 _ => exact h1
  | internal _ _ _ _ _ h2 _ _ => exact Nat.le_of_succ_le h2

theorem treeOK_mkTree (w : Nat) (hw : 2 ≤ w) : TreeOK w (mkTree w) := by
  refine ⟨hw, ?_, ?_⟩
  · show NodeOK w (init_leaf w) (0 + 2)
    exact NodeOK.leaf _ _ _ (List.length_replicate _ _) (by omega) (by omega)
  · show w * w = w ^ (0 + 2)
    ring

theorem freshNode_ok {w : Nat} (lvl : Nat) :
    NodeOK w (freshNode w lvl) (lvl + 1) := by
  unfold freshNode
  split
  · next h =>
      subst h
      exact NodeOK.leaf _ _ _ (List.length_replicate _ _) (by omega) (by omega)
  · next h =>
      refine NodeOK.internal _ _ _ _ (List.length_replicate _ _) (by omega) ?_ ?_
      · intro i _ hbit
        rw [test_bit_zero_word] at hbit
        cases hbit
      · intro c hc
        have := List.eq_of_mem_replicate hc
        cases this

/-! Descent lemmas for `alloc_step` and `is_alloc_step`. -/

theorem alloc_step_unset (w : Nat) (fuel : Nat) (n : Node) (ss idx lvl : Nat) :
    unsetBitsOf (alloc_step w fuel n ss idx lvl).1 = unsetBitsOf n := by
  match fuel, n with
  | 0, n => rfl
  | _ + 1, .leaf u bits => rfl
  | _ + 1, .internal u ab br =>
      simp only [alloc_step]
      split
      · split <;> rfl
      · rfl

theorem is_alloc_fresh {w : Nat} (hw : 2 ≤ w) (fuel m lvl j : Nat)
    (hf : 1 ≤ fuel) (hm : 1 ≤ m) (hlvl : lvl = 0 → m ≤ 2) (hj : j < w ^ m) :
    is_alloc_step w fuel (freshNode w lvl) (w ^ m) j = false := by
  obtain ⟨f, rfl⟩ : ∃ f, fuel = f + 1 := ⟨fuel - 1, by omega⟩
  have hss : w ^ m / w = w ^ (m - 1) := pow_div_w (by omega) hm
  unfold freshNode
  split
  · next h =>
      have hm2 := hlvl h
      have hbucket : j / (w ^ m / w) < w := by
        rw [hss]; exact bucket_lt (by omega) hm hj
      have hbi : j % (w ^ m / w) < w := by
        rw [hss]
        have h1 : j % w ^ (m - 1) < w ^ (m - 1) := Nat.mod_lt _ (pow_pos (by omega) _)
        have h2 : w ^ (m - 1) ≤ w ^ 1 := Nat.pow_le_pow_right (by omega) (by omega)
        rw [pow_one] at h2
        omega
      simp only [init_leaf, is_alloc_step]
      rw [getD_replicate, if_pos hbucket]
      simp [test_bit, testBit_allOnes hbi]
  · simp [is_alloc_step, test_bit_zero_word]

theorem alloc_step_ok {w : Nat} (hw : 2 ≤ w) (fuel : Nat) :
    ∀ (m : Nat) (n : Node) (idx lvl : Nat), NodeOK w n m → (2 ≤ m → lvl = m - 2) →
      NodeOK w (alloc_step w fuel n (w ^ m) idx lvl).1 m := by
  induction fuel with
  | zero =>
      intro m n idx lvl hok _
      exact hok
  | succ fuel ih =>
      intro m n idx lvl hok hlvl
      cases hok with
      | leaf u bits m hlen h1 h2 =>
          simp only [alloc_step]
          exact NodeOK.leaf _ _ _ (by rw [List.length_set]; exact hlen) h1 h2
      | internal u ab br m hlen h2 hguard hch =>
          have hss : w ^ m / w = w ^ (m - 1) := pow_div_w (by omega) (by omega)
          have hlvl2 : lvl = m - 2 := hlvl h2
          simp only [alloc_step, hss]
          by_cases hbucket : idx / w ^ (m - 1) < w
          · split
            · next hbit =>
                obtain ⟨child, hchild⟩ := hguard _ hbucket hbit
                rw [hchild]
                have hchildok : NodeOK w child (m - 1) := hch child (getD_none_mem _ _ _ hchild)
                have hrec : NodeOK w
                    (alloc_step w fuel child (w ^ (m - 1)) (idx % w ^ (m - 1)) (lvl - 1)).1
                    (m - 1) :=
                  ih (m - 1) child _ _ hchildok (by omega)
                refine NodeOK.internal _ _ _ _ (by rw [List.length_set]; exact hlen) h2 ?_ ?_
                · intro i hi hbit2
                  by_cases hieq : i = idx / w ^ (m - 1)
                  · subst hieq
                    exact ⟨_, getD_set_self _ _ _ _ (by omega)⟩
                  · rw [getD_set_ne _ _ _ _ _ (fun he => hieq he.symm)]
                    exact hguard i hi hbit2
                · intro c hc
                  rcases List.mem_or_eq_of_mem_set hc with hmem | heq
                  · exact hch c hmem
                  · cases heq
                    exact hrec
            · next hbit =>
                have hfok : NodeOK w (freshNode w lvl) (m - 1) := by
                  have := freshNode_ok (w := w) lvl
                  have heq : lvl + 1 = m - 1 := by omega
                  rw [heq] at this
                  exact this
                have hrec : NodeOK w
                    (alloc_step w fuel (freshNode w lvl) (w ^ (m - 1))
                      (idx % w ^ (m - 1)) (lvl - 1)).1 (m - 1) :=
                  ih (m - 1) _ _ _ hfok (by omega)
                refine NodeOK.internal _ _ _ _ (by rw [List.length_set]; exact hlen) h2 ?_ ?_
                · intro i hi hbit2
                  by_cases hieq : i = idx / w ^ (m - 1)
                  · subst hieq
                    exact ⟨_, getD_set_self _ _ _ _ (by omega)⟩
                  · rw [getD_set_ne _ _ _ _ _ (fun he => hieq he.symm)]
                    refine hguard i hi ?_
                    rw [test_bit_set_bit_ne _ _ _ (fun he => hieq he.symm)] at hbit2
                    exact hbit2
                · intro c hc
                  rcases List.mem_or_eq_of_mem_set hc with hmem | heq
                  · exact hch c hmem
                  · cases heq
                    exact hrec
          · have hlen2 : br.length ≤ idx / w ^ (m - 1) := by omega
            split
            · next hbit =>
                rw [getD_of_length_le _ _ _ hlen2]
                exact NodeOK.internal _ _ _ _ hlen h2 hguard hch
            · next hbit =>
                rw [List.set_eq_of_length_le hlen2]
                refine NodeOK.internal _ _ _ _ hlen h2 ?_ hch
                intro i hi hbit2
                refine hguard i hi ?_
                rw [test_bit_set_bit_ne _ _ _ (by omega)] at hbit2
                exact hbit2

theorem alloc_step_marks {w : Nat} (hw : 2 ≤ w) (fuel : Nat) :
    ∀ (fuel2 m : Nat) (n : Node) (idx lvl : Nat), NodeOK w n m → m ≤ fuel → m ≤ fuel2 →
      (2 ≤ m → lvl = m - 2) → idx < w ^ m →
      is_alloc_step w fuel2 (alloc_step w fuel n (w ^ m) idx lvl).1 (w ^ m) idx = true := by
  induction fuel with
  | zero =>
      intro fuel2 m n idx lvl hok hf _ _ _
      have := hok.one_le
      omega
  | succ fuel ih =>
      intro fuel2 m n idx lvl hok hf hf2 hlvl hidx
      have hm1 := hok.one_le
      obtain ⟨f2, rfl⟩ : ∃ f2, fuel2 = f2 + 1 := ⟨fuel2 - 1, by omega⟩
      cases hok with
      | leaf u bits m hlen h1 h2 =>
          have hss : w ^ m / w = w ^ (m - 1) := pow_div_w (by omega) h1
          have hbucket : idx / w ^ (m - 1) < w := bucket_lt (by omega) h1 hidx
          have hbi : idx % w ^ (m - 1) < w := by
            have hmo : idx % w ^ (m - 1) < w ^ (m - 1) := Nat.mod_lt _ (pow_pos (by omega) _)
            have hle : w ^ (m - 1) ≤ w ^ 1 := Nat.pow_le_pow_right (by omega) (by omega)
            rw [pow_one] at hle
            omega
          simp only [alloc_step, is_alloc_step, hss]
          rw [getD_set_self _ _ _ _ (by omega), test_bit_clear_bit_self _ _ _ hbi]
          rfl
      | internal u ab br m hlen h2 hguard hch =>
          have hss : w ^ m / w = w ^ (m - 1) := pow_div_w (by omega) (by omega)
          have hlvl2 : lvl = m - 2 := hlvl h2
          have hbucket : idx / w ^ (m - 1) < w := bucket_lt (by omega) (by omega) hidx
          have hmod : idx % w ^ (m - 1) < w ^ (m - 1) := Nat.mod_lt _ (pow_pos (by omega) _)
          simp only [alloc_step, hss]
          by_cases hbit : test_bit ab (idx / w ^ (m - 1)) = true
          · rw [if_pos hbit]
            obtain ⟨child, hchild⟩ := hguard _ hbucket hbit
            rw [hchild]
            have hchildok : NodeOK w child (m - 1) := hch child (getD_none_mem _ _ _ hchild)
            simp only [is_alloc_step, hss]
            rw [if_pos hbit, getD_set_self _ _ _ _ (by omega)]
            exact ih f2 (m - 1) child _ _ hchildok (by omega) (by omega) (by omega) hmod
          · rw [if_neg hbit]
            have hfok : NodeOK w (freshNode w lvl) (m - 1) := by
              have hfr := freshNode_ok (w := w) lvl
              have heq : lvl + 1 = m - 1 := by omega
              rw [heq] at hfr
              exact hfr
            simp only [is_alloc_step, hss]
            rw [if_pos (test_bit_set_bit_self ab _), getD_set_self _ _ _ _ (by omega)]
            exact ih f2 (m - 1) _ _ _ hfok (by omega) (by omega) (by omega) hmod

theorem alloc_step_inc {w : Nat} (hw : 2 ≤ w) (fuel : Nat) :
    ∀ (fuel2 m : Nat) (n : Node) (idx lvl : Nat), NodeOK w n m → m ≤ fuel → m ≤ fuel2 →
      (2 ≤ m → lvl = m - 2) → idx < w ^ m →
      (alloc_step w fuel n (w ^ m) idx lvl).2 = !(is_alloc_step w fuel2 n (w ^ m) idx) := by
  induction fuel with
  | zero =>
      intro fuel2 m n idx lvl hok hf _ _ _
      have := hok.one_le
      omega
  | succ fuel ih =>
      intro fuel2 m n idx lvl hok hf hf2 hlvl hidx
      have hm1 := hok.one_le
      obtain ⟨f2, rfl⟩ : ∃ f2, fuel2 = f2 + 1 := ⟨fuel2 - 1, by omega⟩
      cases hok with
      | leaf u bits m hlen h1 h2 =>
          simp only [alloc_step, is_alloc_step, Bool.not_not]
      | internal u ab br m hlen h2 hguard hch =>
          have hss : w ^ m / w = w ^ (m - 1) := pow_div_w (by omega) (by omega)
          have hlvl2 : lvl = m - 2 := hlvl h2
          have hbucket : idx / w ^ (m - 1) < w := bucket_lt (by omega) (by omega) hidx
          have hmod : idx % w ^ (m - 1) < w ^ (m - 1) := Nat.mod_lt _ (pow_pos (by omega) _)
          simp only [alloc_step, is_alloc_step, hss]
          by_cases hbit : test_bit ab (idx / w ^ (m - 1)) = true
          · rw [if_pos hbit, if_pos hbit]
            obtain ⟨child, hchild⟩ := hguard _ hbucket hbit
            rw [hchild]
            have hchildok : NodeOK w child (m - 1) := hch child (getD_none_mem _ _ _ hchild)
            exact ih f2 (m - 1) child _ _ hchildok (by omega) (by omega) (by omega) hmod
          · rw [if_neg hbit, if_neg hbit]
            have hfok : NodeOK w (freshNode w lvl) (m - 1) := by
              have hfr := freshNode_ok (w := w) lvl
              have heq : lvl + 1 = m - 1 := by omega
              rw [heq] at hfr
              exact hfr
            have hfree : is_alloc_step w (f2 + 1) (freshNode w lvl) (w ^ (m - 1))
                (idx % w ^ (m - 1)) = false := by
              refine is_alloc_fresh hw _ _ _ _ (by omega) (by omega) ?_ hmod
              intro hl0
              omega
            have hrec := ih (f2 + 1) (m - 1) (freshNode w lvl) (idx % w ^ (m - 1)) (lvl - 1)
              hfok (by omega) (by omega) (by omega) hmod
            rw [hrec, hfree]

theorem alloc_step_frame {w : Nat} (hw : 2 ≤ w) (fuel : Nat) :
    ∀ (fuel2 m : Nat) (n : Node) (idx j lvl : Nat), NodeOK w n m → m ≤ fuel → m ≤ fuel2 →
      (2 ≤ m → lvl = m - 2) → idx < w ^ m → j < w ^ m → j ≠ idx →
      is_alloc_step w fuel2 (alloc_step w fuel n (w ^ m) idx lvl).1 (w ^ m) j
        = is_alloc_step w fuel2 n (w ^ m) j := by
  induction fuel with
  | zero =>
      intro fuel2 m n idx j lvl _ _ _ _ _ _ _
      rfl
  | succ fuel ih =>
      intro fuel2 m n idx j lvl hok hf hf2 hlvl hidx hj hne
      have hm1 := hok.one_le
      obtain ⟨f2, rfl⟩ : ∃ f2, fuel2 = f2 + 1 := ⟨fuel2 - 1, by omega⟩
      cases hok with
      | leaf u bits m hlen h1 h2 =>
          have hss : w ^ m / w = w ^ (m - 1) := pow_div_w (by omega) h1
          simp only [alloc_step, is_alloc_step, hss]
          rcases Nat.lt_or_ge m 2 with hm2 | hm2
          · obtain rfl : m = 1 := by omega
            simp only [show (1 : Nat) - 1 = 0 from rfl, pow_zero, Nat.div_one, Nat.mod_one]
            rw [getD_set_ne _ _ _ _ _ (Ne.symm hne)]
          · obtain rfl : m = 2 := by omega
            simp only [show (2 : Nat) - 1 = 1 from rfl, pow_one]
            rw [pow_two] at hidx hj
            by_cases hbq : j / w = idx / w
            · have hmne : j % w ≠ idx % w := fun hmod => hne (eq_of_div_mod_eq hbq hmod)
              rw [hbq, getD_set_self _ _ _ _ (by
                rw [hlen]
                exact (Nat.div_lt_iff_lt_mul (by omega)).mpr hidx)]
              rw [test_bit_clear_bit_ne _ _ _ _ (Nat.mod_lt _ (by omega)) (Ne.symm hmne)]
            · rw [getD_set_ne _ _ _ _ _ (fun he => hbq he.symm)]
      | internal u ab br m hlen h2 hguard hch =>
          have hss : w ^ m / w = w ^ (m - 1) := pow_div_w (by omega) (by omega)
          have hlvl2 : lvl = m - 2 := hlvl h2
          have hbI : idx / w ^ (m - 1) < w := bucket_lt (by omega) (by omega) hidx
          have hbJ : j / w ^ (m - 1) < w := bucket_lt (by omega) (by omega) hj
          have hmodI : idx % w ^ (m - 1) < w ^ (m - 1) := Nat.mod_lt _ (pow_pos (by omega) _)
          have hmodJ : j % w ^ (m - 1) < w ^ (m - 1) := Nat.mod_lt _ (pow_pos (by omega) _)
          simp only [alloc_step, hss]
          by_cases hbit : test_bit ab (idx / w ^ (m - 1)) = true
          · rw [if_pos hbit]
            obtain ⟨child, hchild⟩ := hguard _ hbI hbit
            have hchildok : NodeOK w child (m - 1) := hch child (getD_none_mem _ _ _ hchild)
            rw [hchild]
            simp only [is_alloc_step, hss]
            by_cases hbq : j / w ^ (m - 1) = idx / w ^ (m - 1)
            · have hmne : j % w ^ (m - 1) ≠ idx % w ^ (m - 1) :=
                fun hmod => hne (eq_of_div_mod_eq hbq hmod)
              rw [hbq, if_pos hbit, if_pos hbit, getD_set_self _ _ _ _ (by omega), hchild]
              exact ih f2 (m - 1) child _ _ (lvl - 1) hchildok (by omega) (by omega)
                (by omega) hmodI hmodJ hmne
            · have hbne : idx / w ^ (m - 1) ≠ j / w ^ (m - 1) := fun he => hbq he.symm
              by_cases hbitJ : test_bit ab (j / w ^ (m - 1)) = true
              · rw [if_pos hbitJ, if_pos hbitJ, getD_set_ne _ _ _ _ _ hbne]
              · rw [if_neg hbitJ, if_neg hbitJ]
          · rw [if_neg hbit]
            have hfok : NodeOK w (freshNode w lvl) (m - 1) := by
              have hfr := freshNode_ok (w := w) lvl
              have heq : lvl + 1 = m - 1 := by omega
              rw [heq] at hfr
              exact hfr
            simp only [is_alloc_step, hss]
            by_cases hbq : j / w ^ (m - 1) = idx / w ^ (m - 1)
            · have hmne : j % w ^ (m - 1) ≠ idx % w ^ (m - 1) :=
                fun hmod => hne (eq_of_div_mod_eq hbq hmod)
              rw [hbq, if_pos (test_bit_set_bit_self ab _), if_neg hbit,
                getD_set_self _ _ _ _ (by omega)]
              have hrec := ih f2 (m - 1) (freshNode w lvl) (idx % w ^ (m - 1))
                (j % w ^ (m - 1)) (lvl - 1) hfok (by omega) (by omega) (by omega)
                hmodI hmodJ hmne
              exact hrec.trans (is_alloc_fresh hw f2 (m - 1) lvl _ (by omega) (by omega)
                (fun hl0 => by omega) hmodJ)
            · have hbne : idx / w ^ (m - 1) ≠ j / w ^ (m - 1) := fun he => hbq he.symm
              rw [test_bit_set_bit_ne _ _ _ hbne]
              by_cases hbitJ : test_bit ab (j / w ^ (m - 1)) = true
              · rw [if_pos hbitJ, if_pos hbitJ, getD_set_ne _ _ _ _ _ hbne]
              · rw [if_neg hbitJ, if_neg hbitJ]

/-! Tree-level lemmas: growth and the public operations. -/

theorem wrapRoot_ok {w : Nat} {t : Tree} (h : TreeOK w t) : TreeOK w (wrapRoot w t) := by
  obtain ⟨hw, hroot, hcap⟩ := h
  refine ⟨hw, ?_, ?_⟩
  · show NodeOK w (.internal _ 1 (some t.root :: List.replicate (w - 1) none))
      ((t.levels + 1) + 2)
    refine NodeOK.internal _ _ _ _ ?_ (by omega) ?_ ?_
    · show (some t.root :: List.replicate (w - 1) none).length = w
      rw [List.length_cons, List.length_replicate]
      omega
    · intro i hi hbit
      rw [test_bit_one] at hbit
      have hi0 : 0 = i := of_decide_eq_true hbit
      subst hi0
      exact ⟨t.root, rfl⟩
    · intro c hc
      rcases List.mem_cons.mp hc with heq | hmem
      · have hc2 : c = t.root := by
          injection heq with hh
        subst hc2
        have heq2 : t.levels + 1 + 2 - 1 = t.levels + 2 := by omega
        rw [heq2]
        exact hroot
      · have := List.eq_of_mem_replicate hmem
        cases this
  · show t.current_max_size * w = w ^ (t.levels + 1 + 2)
    have heq : t.levels + 1 + 2 = (t.levels + 2) + 1 := by omega
    rw [heq, pow_succ, hcap]

theorem wrapRoot_obs {w : Nat} {t : Tree} (h : TreeOK w t) (j : Nat) :
    is_allocated w (wrapRoot w t) j = is_allocated w t j := by
  obtain ⟨hw, hroot, hcap⟩ := h
  have hpos : 0 < t.current_max_size := by
    rw [hcap]
    exact pow_pos (by omega) _
  show (if t.current_max_size * w ≤ j then false
        else is_alloc_step w (t.levels + 1 + 2) _ (t.current_max_size * w) j)
      = is_allocated w t j
  unfold is_allocated
  by_cases h1 : t.current_max_size * w ≤ j
  · rw [if_pos h1]
    have h2 : t.current_max_size ≤ j := by
      have := Nat.le_mul_of_pos_right t.current_max_size (show 0 < w by omega)
      omega
    rw [if_pos h2]
  · rw [if_neg h1]
    have hfuel : t.levels + 1 + 2 = (t.levels + 2) + 1 := by omega
    rw [hfuel]
    simp only [is_alloc_step]
    rw [Nat.mul_div_cancel _ (show 0 < w by omega)]
    by_cases h2 : t.current_max_size ≤ j
    · rw [if_pos h2]
      have hb1 : 1 ≤ j / t.current_max_size := (Nat.one_le_div_iff hpos).mpr h2
      have hb0 : ¬(0 = j / t.current_max_size) := by omega
      rw [test_bit_one]
      rw [if_neg (by simpa using hb0)]
    · rw [if_neg h2]
      have hb0 : j / t.current_max_size = 0 := Nat.div_eq_of_lt (by omega)
      rw [hb0]
      have htb : test_bit 1 0 = true := rfl
      rw [if_pos htb, List.getD_cons_zero,
        Nat.mod_eq_of_lt (show j < t.current_max_size by omega)]

theorem move_loop_ok {w idx : Nat} (fuel : Nat) {t : Tree} (h : TreeOK w t) :
    TreeOK w (move_loop w idx fuel t) := by
  induction fuel generalizing t with
  | zero => exact h
  | succ fuel ih =>
      unfold move_loop
      split
      · exact ih (wrapRoot_ok h)
      · exact h

theorem move_loop_obs {w idx : Nat} (fuel : Nat) {t : Tree} (h : TreeOK w t) (j : Nat) :
    is_allocated w (move_loop w idx fuel t) j = is_allocated w t j := by
  induction fuel generalizing t with
  | zero => rfl
  | succ fuel ih =>
      unfold move_loop
      split
      · rw [ih (wrapRoot_ok h)]
        exact wrapRoot_obs h j
      · rfl

theorem move_loop_count (w idx fuel : Nat) (t : Tree) :
    (move_loop w idx fuel t).allocated_resources = t.allocated_resources := by
  induction fuel generalizing t with
  | zero => rfl
  | succ fuel ih =>
      unfold move_loop
      split
      · rw [ih]
        rfl
      · rfl

theorem move_loop_cms_mono {w : Nat} (hw : 1 ≤ w) (idx fuel : Nat) (t : Tree) :
    t.current_max_size ≤ (move_loop w idx fuel t).current_max_size := by
  induction fuel generalizing t with
  | zero => exact Nat.le_refl _
  | succ fuel ih =>
      unfold move_loop
      split
      · have h1 : t.current_max_size ≤ (wrapRoot w t).current_max_size := by
          show t.current_max_size ≤ t.current_max_size * w
          exact Nat.le_mul_of_pos_right _ (by omega)
        exact Nat.le_trans h1 (ih _)
      · exact Nat.le_refl _

theorem move_loop_levels_ge (w idx fuel : Nat) (t : Tree) :
    t.levels ≤ (move_loop w idx fuel t).levels := by
  induction fuel generalizing t with
  | zero => exact Nat.le_refl _
  | succ fuel ih =>
      unfold move_loop
      split
      · have h1 : t.levels + 1 = (wrapRoot w t).levels := rfl
        have h2 := ih (wrapRoot w t)
        omega
      · exact Nat.le_refl _

theorem move_loop_target {w idx : Nat} (hw : 2 ≤ w) (fuel : Nat) {t : Tree}
    (hpos : 0 < t.current_max_size) (hfuel : idx + 1 ≤ t.current_max_size + fuel) :
    idx < (move_loop w idx fuel t).current_max_size := by
  induction fuel generalizing t with
  | zero =>
      show idx < t.current_max_size
      omega
  | succ fuel ih =>
      unfold move_loop
      split
      · next hle =>
          refine ih ?_ ?_
          · show 0 < t.current_max_size * w
            exact Nat.mul_pos hpos (by omega)
          · show idx + 1 ≤ t.current_max_size * w + fuel
            have h2 : t.current_max_size * 2 ≤ t.current_max_size * w :=
              Nat.mul_le_mul_left _ hw
            omega
      · next hle => omega

theorem mms_ok {w : Nat} {t : Tree} (h : TreeOK w t) (idx : Nat) :
    TreeOK w (move_max_size w t idx) := move_loop_ok _ h

theorem mms_obs {w : Nat} {t : Tree} (h : TreeOK w t) (idx j : Nat) :
    is_allocated w (move_max_size w t idx) j = is_allocated w t j := move_loop_obs _ h j

theorem mms_count (w : Nat) (t : Tree) (idx : Nat) :
    (move_max_size w t idx).allocated_resources = t.allocated_resources :=
  move_loop_count _ _ _ _

theorem mms_cms_mono {w : Nat} (hw : 1 ≤ w) (t : Tree) (idx : Nat) :
    t.current_max_size ≤ (move_max_size w t idx).current_max_size :=
  move_loop_cms_mono hw _ _ _

theorem mms_target {w : Nat} {t : Tree} (h : TreeOK w t) (idx : Nat) :
    idx % 2 ^ w < (move_max_size w t idx).current_max_size := by
  have hpos : 0 < t.current_max_size := by
    rw [h.cap]
    exact pow_pos (by have := h.hw; omega) _
  exact move_loop_target h.hw _ hpos (by omega)

theorem allocate_at_ok {w : Nat} {t : Tree} (h : TreeOK w t) (idx : Nat) :
    TreeOK w (allocate_at w t idx) := by
  have key : ∀ s : Tree, TreeOK w s →
      TreeOK w { root := (alloc_step w (s.levels + 2) s.root s.current_max_size idx s.levels).1
                 levels := s.levels
                 allocated_resources := s.allocated_resources +
                   (if (alloc_step w (s.levels + 2) s.root s.current_max_size idx s.levels).2
                    then 1 else 0)
                 current_max_size := s.current_max_size } := by
    intro s hs
    refine ⟨hs.hw, ?_, hs.cap⟩
    show NodeOK w (alloc_step w (s.levels + 2) s.root s.current_max_size idx s.levels).1
      (s.levels + 2)
    rw [hs.cap]
    exact alloc_step_ok hs.hw (s.levels + 2) (s.levels + 2) s.root idx s.levels
      hs.root_ok (by omega)
  unfold allocate_at
  split
  · exact key _ (mms_ok h idx)
  · exact key _ h

theorem allocate_at_is_allocated {w : Nat} {t : Tree} (h : TreeOK w t) (idx : Nat)
    (hidx : idx < 2 ^ w) :
    is_allocated w (allocate_at w t idx) idx = true := by
  have key : ∀ s : Tree, TreeOK w s → idx < s.current_max_size →
      is_allocated w
        { root := (alloc_step w (s.levels + 2) s.root s.current_max_size idx s.levels).1
          levels := s.levels
          allocated_resources := s.allocated_resources +
            (if (alloc_step w (s.levels + 2) s.root s.current_max_size idx s.levels).2
             then 1 else 0)
          current_max_size := s.current_max_size } idx = true := by
    intro s hs hlt
    unfold is_allocated
    rw [if_neg (by show ¬(s.current_max_size ≤ idx); omega)]
    show is_alloc_step w (s.levels + 2)
      (alloc_step w (s.levels + 2) s.root s.current_max_size idx s.levels).1
      s.current_max_size idx = true
    rw [hs.cap]
    rw [hs.cap] at hlt
    exact alloc_step_marks hs.hw (s.levels + 2) (s.levels + 2) (s.levels + 2) s.root idx
      s.levels hs.root_ok (by omega) (by omega) (by omega) hlt
  unfold allocate_at
  split
  · next hg =>
      refine key _ (mms_ok h idx) ?_
      have := mms_target h idx
      rw [Nat.mod_eq_of_lt hidx] at this
      exact this
  · next hg => exact key _ h (by omega)

theorem allocate_at_count {w : Nat} {t : Tree} (h : TreeOK w t) (idx : Nat)
    (hidx : idx < 2 ^ w) :
    (allocate_at w t idx).allocated_resources
      = t.allocated_resources + (if is_allocated w t idx then 0 else 1) := by
  have key : ∀ s : Tree, TreeOK w s → idx < s.current_max_size →
      (s.allocated_resources +
        (if (alloc_step w (s.levels + 2) s.root s.current_max_size idx s.levels).2
         then 1 else 0))
      = s.allocated_resources + (if is_allocated w s idx then 0 else 1) := by
    intro s hs hlt
    have hinc : (alloc_step w (s.levels + 2) s.root s.current_max_size idx s.levels).2
        = !(is_alloc_step w (s.levels + 2) s.root s.current_max_size idx) := by
      rw [hs.cap]
      rw [hs.cap] at hlt
      exact alloc_step_inc hs.hw (s.levels + 2) (s.levels + 2) (s.levels + 2) s.root idx
        s.levels hs.root_ok (by omega) (by omega) (by omega) hlt
    have hguard : is_allocated w s idx
        = is_alloc_step w (s.levels + 2) s.root s.current_max_size idx := by
      unfold is_allocated
      rw [if_neg (by omega)]
    rw [hinc, hguard]
    cases is_alloc_step w (s.levels + 2) s.root s.current_max_size idx <;> rfl
  unfold allocate_at
  split
  · next hg =>
      show (move_max_size w t idx).allocated_resources + _ = _
      have htgt : idx < (move_max_size w t idx).current_max_size := by
        have := mms_target h idx
        rw [Nat.mod_eq_of_lt hidx] at this
        exact this
      rw [key _ (mms_ok h idx) htgt, mms_count, mms_obs h]
  · next hg => exact key _ h (by omega)

theorem allocate_at_frame {w : Nat} {t : Tree} (h : TreeOK w t) (idx j : Nat)
    (hidx : idx < 2 ^ w) (hne : j ≠ idx) :
    is_allocated w (allocate_at w t idx) j = is_allocated w t j := by
  have key : ∀ s : Tree, TreeOK w s → idx < s.current_max_size →
      is_allocated w
        { root := (alloc_step w (s.levels + 2) s.root s.current_max_size idx s.levels).1
          levels := s.levels
          allocated_resources := s.allocated_resources +
            (if (alloc_step w (s.levels + 2) s.root s.current_max_size idx s.levels).2
             then 1 else 0)
          current_max_size := s.current_max_size } j = is_allocated w s j := by
    intro s hs hlt
    unfold is_allocated
    by_cases hj : s.current_max_size ≤ j
    · rw [if_pos hj, if_pos hj]
    · rw [if_neg hj, if_neg hj]
      show is_alloc_step w (s.levels + 2)
        (alloc_step w (s.levels + 2) s.root s.current_max_size idx s.levels).1
        s.current_max_size j = is_alloc_step w (s.levels + 2) s.root s.current_max_size j
      rw [hs.cap]
      rw [hs.cap] at hlt hj
      exact alloc_step_frame hs.hw (s.levels + 2) (s.levels + 2) (s.levels + 2) s.root idx j
        s.levels hs.root_ok (by omega) (by omega) (by omega) hlt (by omega) hne
  unfold allocate_at
  split
  · next hg =>
      have htgt : idx < (move_max_size w t idx).current_max_size := by
        have := mms_target h idx
        rw [Nat.mod_eq_of_lt hidx] at this
        exact this
      rw [key _ (mms_ok h idx) htgt]
      exact mms_obs h idx j
  · next hg => exact key _ h (by omega)

/-! Reachability invariants. -/

theorem applyOp_ok {w : Nat} {t : Tree} (h : TreeOK w t) (op : Op) :
    TreeOK w (applyOp w op t) := by
  cases op with
  | allocAt idx => exact allocate_at_ok h idx
  | alloc => exact h
  | dealloc idx => exact h

theorem runOps_ok {w : Nat} (ops : List Op) {t : Tree} (h : TreeOK w t) :
    TreeOK w (runOps w ops t) := by
  induction ops generalizing t with
  | nil => exact h
  | cons op ops ih => exact ih (applyOp_ok h op)

theorem reachable_ok {w : Nat} (hw : 2 ≤ w) {t : Tree} (hr : Reachable w t) :
    TreeOK w t := by
  obtain ⟨ops, rfl⟩ := hr
  exact runOps_ok ops (treeOK_mkTree w hw)

/-- Invariant used for the growth claim: the root's free-summary word is the
all-ones word in every reachable state (the source never clears any summary
bit, and every wrap writes all-ones when the old root's summary is all-ones). -/
def RootAllFree (w : Nat) (t : Tree) : Prop :=
  unsetBitsOf t.root = some (allOnes w)

theorem wrapRoot_rootAllFree {w : Nat} {t : Tree} (h : RootAllFree w t) :
    RootAllFree w (wrapRoot w t) := by
  have h2 : unsetBitsOf t.root = some (allOnes w) := h
  show some (if unsetBitsOf t.root = some (allOnes w) then allOnes w else allOnes w ^^^ 1)
    = some (allOnes w)
  rw [if_pos h2]

theorem move_loop_rootAllFree {w idx : Nat} (fuel : Nat) {t : Tree} (h : RootAllFree w t) :
    RootAllFree w (move_loop w idx fuel t) := by
  induction fuel generalizing t with
  | zero => exact h
  | succ fuel ih =>
      unfold move_loop
      split
      · exact ih (wrapRoot_rootAllFree h)
      · exact h

theorem allocate_at_rootAllFree {w : Nat} {t : Tree} (h : RootAllFree w t) (idx : Nat) :
    RootAllFree w (allocate_at w t idx) := by
  have key : ∀ s : Tree, RootAllFree w s →
      RootAllFree w { root := (alloc_step w (s.levels + 2) s.root s.current_max_size idx
                        s.levels).1
                      levels := s.levels
                      allocated_resources := s.allocated_resources +
                        (if (alloc_step w (s.levels + 2) s.root s.current_max_size idx
                            s.levels).2 then 1 else 0)
                      current_max_size := s.current_max_size } := by
    intro s hs
    show unsetBitsOf (alloc_step w (s.levels + 2) s.root s.current_max_size idx s.levels).1
      = some (allOnes w)
    rw [alloc_step_unset]
    exact hs
  unfold allocate_at
  split
  · exact key _ (move_loop_rootAllFree _ h)
  · exact key _ h

theorem reachable_rootAllFree {w : Nat} {t : Tree} (hr : Reachable w t) :
    RootAllFree w t := by
  obtain ⟨ops, rfl⟩ := hr
  have hstart : RootAllFree w (mkTree w) := rfl
  have : ∀ (ops : List Op) (s : Tree), RootAllFree w s → RootAllFree w (runOps w ops s) := by
    intro ops
    induction ops with
    | nil => intro s hs; exact hs
    | cons op ops ih =>
        intro s hs
        refine ih _ ?_
        cases op with
        | allocAt idx => exact allocate_at_rootAllFree hs idx
        | alloc => exact hs
        | dealloc idx => exact hs
  exact this ops _ hstart

/-- Iterated root wraps; `move_max_size` visits exactly the states
`wrapIter w n t` while its loop guard holds. -/
def wrapIter (w : Nat) : Nat → Tree → Tree
  | 0, t => t
  | n + 1, t => wrapIter w n (wrapRoot w t)

theorem wrapIter_rootAllFree {w : Nat} (n : Nat) {t : Tree} (h : RootAllFree w t) :
    RootAllFree w (wrapIter w n t) := by
  induction n generalizing t with
  | zero => exact h
  | succ n ih => exact ih (wrapRoot_rootAllFree h)

/-! Node counting, for the sparseness claim. -/

mutual

/-- Number of materialized nodes in a subtree. -/
def nodeCount : Node → Nat
  | .leaf _ _ => 1
  | .internal _ _ br => 1 + branchesCount br

/-- Number of materialized nodes hanging off a branch array. -/
def branchesCount : List (Option Node) → Nat
  | [] => 0
  | none :: rest => branchesCount rest
  | some c :: rest => nodeCount c + branchesCount rest

end

theorem branchesCount_replicate (k : Nat) : branchesCount (List.replicate k none) = 0 := by
  induction k with
  | zero => rfl
  | succ k ih => rw [List.replicate_succ, branchesCount, ih]

theorem nodeCount_freshNode (w lvl : Nat) : nodeCount (freshNode w lvl) = 1 := by
  unfold freshNode
  split
  · rfl
  · show 1 + branchesCount (List.replicate w none) = 1
    rw [branchesCount_replicate]

theorem branchesCount_cons_le (x : Option Node) (rest : List (Option Node)) :
    branchesCount rest ≤ branchesCount (x :: rest) := by
  cases x with
  | none => exact Nat.le_refl _
  | some y =>
      show branchesCount rest ≤ nodeCount y + branchesCount rest
      omega

theorem branchesCount_set_le (l : List (Option Node)) (n : Nat) (c : Node) :
    branchesCount (l.set n (some c)) ≤ branchesCount l + nodeCount c := by
  induction l generalizing n with
  | nil =>
      show branchesCount [] ≤ branchesCount [] + nodeCount c
      omega
  | cons x rest ih =>
      cases n with
      | zero =>
          show branchesCount (some c :: rest) ≤ branchesCount (x :: rest) + nodeCount c
          have h1 := branchesCount_cons_le x rest
          show nodeCount c + branchesCount rest ≤ branchesCount (x :: rest) + nodeCount c
          omega
      | succ n =>
          show branchesCount (x :: rest.set n (some c))
            ≤ branchesCount (x :: rest) + nodeCount c
          cases x with
          | none =>
              show branchesCount (rest.set n (some c)) ≤ branchesCount rest + nodeCount c
              exact ih n
          | some y =>
              show nodeCount y + branchesCount (rest.set n (some c))
                ≤ nodeCount y + branchesCount rest + nodeCount c
              have := ih n
              omega

theorem branchesCount_set_exact (l : List (Option Node)) (n : Nat) (c c0 : Node)
    (h : l.getD n none = some c0) :
    branchesCount (l.set n (some c)) + nodeCount c0 = branchesCount l + nodeCount c := by
  induction l generalizing n with
  | nil =>
      rw [List.getD_nil] at h
      cases h
  | cons x rest ih =>
      cases n with
      | zero =>
          rw [List.getD_cons_zero] at h
          subst h
          show branchesCount (some c :: rest) + nodeCount c0
            = branchesCount (some c0 :: rest) + nodeCount c
          show nodeCount c + branchesCount rest + nodeCount c0
            = nodeCount c0 + branchesCount rest + nodeCount c
          omega
      | succ n =>
          rw [List.getD_cons_succ] at h
          cases x with
          | none =>
              show branchesCount (rest.set n (some c)) + nodeCount c0
                = branchesCount rest + nodeCount c
              exact ih n h
          | some y =>
              show nodeCount y + branchesCount (rest.set n (some c)) + nodeCount c0
                = nodeCount y + branchesCount rest + nodeCount c
              have := ih n h
              omega

theorem nodeCount_alloc_leaf (w fuel : Nat) (u : Nat) (bits : List Nat) (ss idx lvl : Nat) :
    nodeCount (alloc_step w fuel (.leaf u bits) ss idx lvl).1 = 1 := by
  cases fuel with
  | zero => rfl
  | succ fuel => rfl

theorem alloc_step_count (w : Nat) (fuel : Nat) :
    ∀ (n : Node) (ss idx lvl : Nat),
      nodeCount (alloc_step w fuel n ss idx lvl).1 ≤ nodeCount n + lvl + 1 := by
  induction fuel with
  | zero =>
      intro n ss idx lvl
      show nodeCount n ≤ nodeCount n + lvl + 1
      omega
  | succ fuel ih =>
      intro n ss idx lvl
      match n with
      | .leaf u bits =>
          rw [nodeCount_alloc_leaf]
          show 1 ≤ 1 + branchesCount [] + lvl + 1
          omega
      | .internal u ab br =>
          simp only [alloc_step]
          split
          · cases hch : br.getD (idx / (ss / w)) none with
            | none =>
                show nodeCount (.internal u ab br) ≤ nodeCount (.internal u ab br) + lvl + 1
                omega
            | some child =>
                show nodeCount (.internal u ab (br.set (idx / (ss / w))
                    (some (alloc_step w fuel child (ss / w) (idx % (ss / w))
                      (lvl - 1)).1)))
                  ≤ nodeCount (.internal u ab br) + lvl + 1
                have hex := branchesCount_set_exact br (idx / (ss / w))
                  (alloc_step w fuel child (ss / w) (idx % (ss / w)) (lvl - 1)).1
                  child hch
                have hIH := ih child (ss / w) (idx % (ss / w)) (lvl - 1)
                show 1 + branchesCount (br.set (idx / (ss / w)) _)
                  ≤ 1 + branchesCount br + lvl + 1
                omega
          · show nodeCount (.internal u (set_bit ab (idx / (ss / w)))
                (br.set (idx / (ss / w))
                  (some (alloc_step w fuel (freshNode w lvl) (ss / w) (idx % (ss / w))
                    (lvl - 1)).1)))
              ≤ nodeCount (.internal u ab br) + lvl + 1
            have hle := branchesCount_set_le br (idx / (ss / w))
              (alloc_step w fuel (freshNode w lvl) (ss / w) (idx % (ss / w)) (lvl - 1)).1
            by_cases hlvl : lvl = 0
            · subst hlvl
              have hf0 : freshNode w 0 = init_leaf w := by
                unfold freshNode
                rw [if_pos rfl]
              have hr1 : nodeCount (alloc_step w fuel (freshNode w 0) (ss / w)
                  (idx % (ss / w)) (0 - 1)).1 = 1 := by
                rw [hf0]
                unfold init_leaf
                exact nodeCount_alloc_leaf _ _ _ _ _ _ _
              show 1 + branchesCount (br.set (idx / (ss / w)) _)
                ≤ 1 + branchesCount br + 0 + 1
              omega
            · have hIH := ih (freshNode w lvl) (ss / w) (idx % (ss / w)) (lvl - 1)
              have hfr := nodeCount_freshNode w lvl
              show 1 + branchesCount (br.set (idx / (ss / w)) _)
                ≤ 1 + branchesCount br + lvl + 1
              omega

theorem wrapRoot_nodeCount (w : Nat) (t : Tree) :
    nodeCount (wrapRoot w t).root = nodeCount t.root + 1 := by
  show nodeCount (.internal _ 1 (some t.root :: List.replicate (w - 1) none)) = _
  show 1 + branchesCount (some t.root :: List.replicate (w - 1) none) = _
  show 1 + (nodeCount t.root + branchesCount (List.replicate (w - 1) none)) = _
  rw [branchesCount_replicate]
  omega

theorem move_loop_nodeCount (w idx fuel : Nat) (t : Tree) :
    nodeCount (move_loop w idx fuel t).root
      = nodeCount t.root + ((move_loop w idx fuel t).levels - t.levels) := by
  induction fuel generalizing t with
  | zero =>
      show nodeCount t.root = nodeCount t.root + (t.levels - t.levels)
      omega
  | succ fuel ih =>
      unfold move_loop
      split
      · have h1 := ih (wrapRoot w t)
        have h2 := wrapRoot_nodeCount w t
        have h3 := move_loop_levels_ge w idx fuel (wrapRoot w t)
        have h4 : (wrapRoot w t).levels = t.levels + 1 := rfl
        omega
      · show nodeCount t.root = nodeCount t.root + (t.levels - t.levels)
        omega

/-! Read-only lookup characterization, for the `is_allocated` claim. -/

/-- Companion to the `is_allocated` descent that makes its outcome explicit:
`none` when a branch on the path is unmaterialized (the never-touched case),
otherwise the leaf word and bit position the index maps to. -/
def lookup_slot (w : Nat) : Nat → Node → Nat → Nat → Option (Nat × Nat)
  | 0, _, _, _ => none
  | _ + 1, .leaf _ bits, subtree_size, idx =>
      let ss := subtree_size / w
      some (bits.getD (idx / ss) 0, idx % ss)
  | fuel + 1, .internal _ ab br, subtree_size, idx =>
      let ss := subtree_size / w
      if test_bit ab (idx / ss) then
        match br.getD (idx / ss) none with
        | some child => lookup_slot w fuel child ss (idx % ss)
        | none => none
      else none

theorem is_alloc_step_eq_lookup (w : Nat) (fuel : Nat) :
    ∀ (n : Node) (ss idx : Nat),
      is_alloc_step w fuel n ss idx
        = match lookup_slot w fuel n ss idx with
          | none => false
          | some wb => !(test_bit wb.1 wb.2) := by
  induction fuel with
  | zero =>
      intro n ss idx
      rfl
  | succ fuel ih =>
      intro n ss idx
      match n with
      | .leaf u bits => rfl
      | .internal u ab br =>
          simp only [is_alloc_step, lookup_slot]
          by_cases hbit : test_bit ab (idx / (ss / w)) = true
          · rw [if_pos hbit, if_pos hbit]
            cases hch : br.getD (idx / (ss / w)) none with
            | none => rfl
            | some child => exact ih child _ _
          · rw [if_neg hbit, if_neg hbit]

/-! Formalization of the claimed free-summary invariant. -/

/-- Does the subtree below a node still contain at least one unallocated
index?  For a leaf, word `i` holds free indices iff it is nonzero; an
unmaterialized branch of an internal node counts as free (never touched).
Fuel bounds the recursion depth; any fuel at least the subtree height gives
the true answer. -/
def hasFreeBelow (w : Nat) : Nat → Node → Bool
  | _, .leaf _ bits => bits.any fun word => decide (word ≠ 0)
  | 0, .internal _ _ _ => true
  | fuel + 1, .internal _ ab br =>
      (List.range w).any fun i =>
        if test_bit ab i then
          match br.getD i none with
          | some c => hasFreeBelow w fuel c
          | none => true
        else true

/-- Does branch `i` of a node contain at least one unallocated index, as the
claimed invariant reads it: for a leaf, branch `i` is data word `i`; for an
internal node, branch `i` is the child subtree (free when unmaterialized). -/
def branchHasFree (w fuel : Nat) (n : Node) (i : Nat) : Bool :=
  match n with
  | .leaf _ bits => decide (bits.getD i 0 ≠ 0)
  | .internal _ ab br =>
      if test_bit ab i then
        match br.getD i none with
        | some c => hasFreeBelow w fuel c
        | none => true
      else true

/-- The claimed free-summary invariant, checked on every materialized node of
a subtree: bit `i` of the node's `unset_branches` word is set iff branch `i`
still contains an unallocated index (an unwritten summary word reads as 0). -/
def freeSummaryOK (w : Nat) : Nat → Node → Bool
  | 0, _ => true
  | fuel + 1, n =>
      ((List.range w).all fun i =>
        ((unsetBitsOf n).getD 0).testBit i == branchHasFree w fuel n i)
      && (match n with
          | .leaf _ _ => true
          | .internal _ _ br =>
              (List.range w).all fun i =>
                match br.getD i none with
                | some c => freeSummaryOK w fuel c
                | none => true)

/-! Claim theorems. -/

/-- Claim C1: the free-summary invariant (a node's `unset_branches` bit `i`
is 1 iff branch `i` still contains an unallocated index, restored by every
`allocate_at` along its path) FAILS on the code.  After
`allocate_at 0 .. allocate_at 7` on a fresh `w = 8` tree — a state reachable
by public operations — the root leaf's data word 0 is fully allocated (value
0) while summary bit 0 of `unset_branches` (still `~T(0) = 255`) remains
set: `allocate_at` never writes any `unset_branches` word. -/
theorem c1_free_summary_invariant_fails :
    freeSummaryOK 8 3 (runOps 8 [.allocAt 0, .allocAt 1, .allocAt 2, .allocAt 3,
        .allocAt 4, .allocAt 5, .allocAt 6, .allocAt 7] (mkTree 8)).root = false
    ∧ unsetBitsOf (runOps 8 [.allocAt 0, .allocAt 1, .allocAt 2, .allocAt 3,
        .allocAt 4, .allocAt 5, .allocAt 6, .allocAt 7] (mkTree 8)).root = some 255
    ∧ (leafBitsOf (runOps 8 [.allocAt 0, .allocAt 1, .allocAt 2, .allocAt 3,
        .allocAt 4, .allocAt 5, .allocAt 6, .allocAt 7] (mkTree 8)).root).getD 0 1 = 0 := by
  refine ⟨?_, ?_, ?_⟩ <;> decide

/-- Claim C2: `allocate()` must return the smallest index that was free and
mark it allocated; the source body is `return T();`.  On a fresh `w = 8`
tree it returns 0, yet 0 stays unallocated and the count stays 0; after
`allocate_at 0` it still returns 0 although 0 is no longer free (the
smallest free index is 1). -/
theorem c2_allocate_stub_returns_without_reserving :
    (allocate 8 (mkTree 8)).2 = 0
    ∧ is_allocated 8 (allocate 8 (mkTree 8)).1 0 = false
    ∧ (allocate 8 (mkTree 8)).1.allocated_resources = 0
    ∧ (allocate 8 (allocate_at 8 (mkTree 8) 0)).2 = 0
    ∧ is_allocated 8 (allocate_at 8 (mkTree 8) 0) 0 = true := by
  refine ⟨?_, ?_, ?_, ?_, ?_⟩ <;> decide

/-- Claim C3: after `deallocate(idx)` the index must read unallocated and
the count must drop when it was allocated; the source body of `deallocate`
is empty, so after `allocate_at 5` followed by `deallocate 5` the index 5
still reads allocated and the count stays 1. -/
theorem c3_deallocate_stub_leaves_allocated :
    is_allocated 8 (deallocate 8 (allocate_at 8 (mkTree 8) 5) 5) 5 = true
    ∧ (deallocate 8 (allocate_at 8 (mkTree 8) 5) 5).allocated_resources = 1 := by
  refine ⟨?_, ?_⟩ <;> decide

/-- Claim C4 (checked over reachable states): every wrap the growth routine
performs — `move_max_size` iterates `wrapRoot`, so from a state `t` the
loop's inputs are exactly the `wrapIter w n t` — makes the old root branch 0
of the new internal root; the new root's free-summary word is all-ones
whenever the old root's summary word is nonzero, and it equals all-ones with
bit 0 cleared exactly when the old summary is zero.  In reachable states the
old summary is always the all-ones word, so the first case always fires and
the zero case never does. -/
theorem c4_growth_wrap_summary (w : Nat) (hw : 1 ≤ w) (t : Tree)
    (hr : Reachable w t) (n : Nat) :
    (branchesOf (wrapRoot w (wrapIter w n t)).root).getD 0 none
        = some (wrapIter w n t).root
    ∧ (unsetBitsOf (wrapIter w n t).root ≠ some 0 →
        unsetBitsOf (wrapRoot w (wrapIter w n t)).root = some (allOnes w))
    ∧ (unsetBitsOf (wrapRoot w (wrapIter w n t)).root = some (allOnes w ^^^ 1)
        ↔ unsetBitsOf (wrapIter w n t).root = some 0) := by
  have hfree : RootAllFree w (wrapIter w n t) :=
    wrapIter_rootAllFree n (reachable_rootAllFree hr)
  have hfree2 : unsetBitsOf (wrapIter w n t).root = some (allOnes w) := hfree
  have hall : (0 : Nat) < allOnes w := by
    unfold allOnes
    have h1 : (2 : Nat) ^ 1 ≤ 2 ^ w := Nat.pow_le_pow_right (by omega) hw
    omega
  have hwrap : unsetBitsOf (wrapRoot w (wrapIter w n t)).root = some (allOnes w) :=
    wrapRoot_rootAllFree hfree
  have hne1 : allOnes w ≠ allOnes w ^^^ 1 := by
    intro he
    have h0 := congrArg (fun x => Nat.testBit x 0) he
    simp only [Nat.testBit_xor] at h0
    rw [testBit_allOnes (show 0 < w by omega)] at h0
    have h2 : (1 : Nat).testBit 0 = true := rfl
    rw [h2] at h0
    cases h0
  refine ⟨?_, fun _ => hwrap, ?_⟩
  · rfl
  · rw [hwrap, hfree2]
    constructor
    · intro hcontra
      exact absurd (Option.some.inj hcontra) hne1
    · intro hcontra
      have := Option.some.inj hcontra
      omega

/-- Witness for the growth-wrap claim at a concrete reachable input. -/
theorem c4_growth_wrap_summary_witness :
    (branchesOf (wrapRoot 8 (wrapIter 8 0 (mkTree 8))).root).getD 0 none
        = some (wrapIter 8 0 (mkTree 8)).root
    ∧ (unsetBitsOf (wrapIter 8 0 (mkTree 8)).root ≠ some 0 →
        unsetBitsOf (wrapRoot 8 (wrapIter 8 0 (mkTree 8))).root = some (allOnes 8))
    ∧ (unsetBitsOf (wrapRoot 8 (wrapIter 8 0 (mkTree 8))).root = some (allOnes 8 ^^^ 1)
        ↔ unsetBitsOf (wrapIter 8 0 (mkTree 8)).root = some 0) :=
  c4_growth_wrap_summary 8 (by decide) (mkTree 8) ⟨[], rfl⟩ 0

/-- Claim C5: immediately after `allocate_at idx`, `is_allocated idx` is
true, growing the tree first when `idx` is at or beyond the capacity.  The
index must be in the domain of the word type (`idx < 2 ^ w`), which the spec
declares a caller precondition: `move_max_size` takes its parameter as `T`,
so a larger `u64` argument would be truncated there. -/
theorem c5_allocate_at_marks (w : Nat) (t : Tree) (idx : Nat) (h : TreeOK w t)
    (hidx : idx < 2 ^ w) :
    is_allocated w (allocate_at w t idx) idx = true :=
  allocate_at_is_allocated h idx hidx

/-- Witness for C5 at a concrete input that exercises growth (70 ≥ 64). -/
theorem c5_allocate_at_marks_witness :
    is_allocated 8 (allocate_at 8 (mkTree 8) 70) 70 = true :=
  c5_allocate_at_marks 8 (mkTree 8) 70 (treeOK_mkTree 8 (by decide)) (by decide)

/-- Claim C6 as stated is false: starting from a state in which `idx` is
already allocated (here `allocate_at 0` applied to a fresh tree), calling
`allocate_at 0` twice more changes the allocated count by 0, not by
exactly 1. -/
theorem c6_allocate_at_twice_counterexample :
    ¬((allocate_at 8 (allocate_at 8 (allocate_at 8 (mkTree 8) 0) 0) 0).allocated_resources
      = (allocate_at 8 (mkTree 8) 0).allocated_resources + 1) := by
  decide

/-- Claim C6 amended: calling `allocate_at idx` twice in a row changes the
allocated count by exactly 1 when `idx` was unallocated before the first
call, and by 0 when it was already allocated — never by 2, because the
second call never increments; calling `deallocate idx` twice in a row
changes the count by at most 1 and never makes it negative (the stub leaves
it unchanged). -/
theorem c6_idempotence_amended (w : Nat) (t : Tree) (idx : Nat) (h : TreeOK w t)
    (hidx : idx < 2 ^ w) :
    ((is_allocated w t idx = false →
        (allocate_at w (allocate_at w t idx) idx).allocated_resources
          = t.allocated_resources + 1)
      ∧ (is_allocated w t idx = true →
        (allocate_at w (allocate_at w t idx) idx).allocated_resources
          = t.allocated_resources))
    ∧ (deallocate w (deallocate w t idx) idx).allocated_resources
        ≤ t.allocated_resources + 1
    ∧ t.allocated_resources
        ≤ (deallocate w (deallocate w t idx) idx).allocated_resources + 1 := by
  have h1 : TreeOK w (allocate_at w t idx) := allocate_at_ok h idx
  have hc1 := allocate_at_count h idx hidx
  have hc2 := allocate_at_count h1 idx hidx
  have hmark := allocate_at_is_allocated h idx hidx
  rw [hmark, if_pos rfl] at hc2
  refine ⟨⟨?_, ?_⟩, ?_, ?_⟩
  · intro hfree
    rw [hfree, if_neg (by simp)] at hc1
    omega
  · intro htrue
    rw [htrue, if_pos rfl] at hc1
    omega
  · show t.allocated_resources ≤ t.allocated_resources + 1
    omega
  · show t.allocated_resources ≤ t.allocated_resources + 1
    omega

/-- Witness for the amended C6: allocating a fresh index twice counts once. -/
theorem c6_idempotence_amended_witness :
    (allocate_at 8 (allocate_at 8 (mkTree 8) 3) 3).allocated_resources
      = (mkTree 8).allocated_resources + 1 := by
  have h := c6_idempotence_amended 8 (mkTree 8) 3 (treeOK_mkTree 8 (by decide)) (by decide)
  exact h.1.1 (by decide)

/-- Claim C7: in every reachable state the capacity equals
`w ^ (levels + 2)` (a power of the branching factor with exponent at least
2); a fresh tree starts at `w ^ 2`; and no public operation ever decreases
the capacity. -/
theorem c7_capacity_shape (w : Nat) (hw : 2 ≤ w) (t : Tree) (hr : Reachable w t)
    (op : Op) :
    t.current_max_size = w ^ (t.levels + 2)
    ∧ (mkTree w).current_max_size = w ^ 2
    ∧ t.current_max_size ≤ (applyOp w op t).current_max_size := by
  have hok := reachable_ok hw hr
  refine ⟨hok.cap, ?_, ?_⟩
  · show w * w = w ^ 2
    rw [pow_two]
  · cases op with
    | allocAt idx =>
        show t.current_max_size ≤ (allocate_at w t idx).current_max_size
        unfold allocate_at
        split
        · show t.current_max_size ≤ (move_max_size w t idx).current_max_size
          exact mms_cms_mono (by omega) t idx
        · exact Nat.le_refl _
    | alloc => exact Nat.le_refl _
    | dealloc idx => exact Nat.le_refl _

/-- Witness for C7 at a concrete reachable state and operation. -/
theorem c7_capacity_shape_witness :
    (mkTree 8).current_max_size = 8 ^ ((mkTree 8).levels + 2)
    ∧ (mkTree 8).current_max_size = 8 ^ 2
    ∧ (mkTree 8).current_max_size ≤ (applyOp 8 (.allocAt 0) (mkTree 8)).current_max_size :=
  c7_capacity_shape 8 (by decide) (mkTree 8) ⟨[], rfl⟩ (.allocAt 0)

/-- Claim C8: `is_allocated idx` returns false immediately when the index is
at or beyond the capacity; otherwise it returns false when a branch on the
root-to-leaf path is unmaterialized (`lookup_slot` returns `none`), and the
negation of the leaf bit otherwise.  The embedding is a pure function on the
tree state, so the call never raises and never modifies the tree. -/
theorem c8_is_allocated_characterization (w : Nat) (t : Tree) (idx : Nat) :
    is_allocated w t idx =
      if t.current_max_size ≤ idx then false
      else match lookup_slot w (t.levels + 2) t.root t.current_max_size idx with
        | none => false
        | some wb => !(test_bit wb.1 wb.2) := by
  unfold is_allocated
  split
  · rfl
  · exact is_alloc_step_eq_lookup w _ t.root _ idx

/-- Claim C9: one `allocate_at` call materializes at most one node per level
of its own descent path (the final tree has `levels + 1` levels below the
root) plus exactly one new root per growth wrap (`levels` grows by the wrap
count); in particular the node count is independent of the magnitude of
`idx` beyond the level count, so intermediate leaves are never created. -/
theorem c9_sparse_node_count (w : Nat) (t : Tree) (idx : Nat) :
    nodeCount (allocate_at w t idx).root
      ≤ nodeCount t.root + ((allocate_at w t idx).levels - t.levels)
        + ((allocate_at w t idx).levels + 1) := by
  unfold allocate_at
  split
  · have h1 := alloc_step_count w ((move_max_size w t idx).levels + 2)
      (move_max_size w t idx).root (move_max_size w t idx).current_max_size idx
      (move_max_size w t idx).levels
    have h2 : nodeCount (move_max_size w t idx).root
        = nodeCount t.root + ((move_max_size w t idx).levels - t.levels) :=
      move_loop_nodeCount w (idx % 2 ^ w) (idx % 2 ^ w + 1) t
    have h3 : t.levels ≤ (move_max_size w t idx).levels :=
      move_loop_levels_ge w (idx % 2 ^ w) (idx % 2 ^ w + 1) t
    show nodeCount (alloc_step w ((move_max_size w t idx).levels + 2)
        (move_max_size w t idx).root (move_max_size w t idx).current_max_size idx
        (move_max_size w t idx).levels).1
      ≤ nodeCount t.root + ((move_max_size w t idx).levels - t.levels)
        + ((move_max_size w t idx).levels + 1)
    omega
  · have h1 := alloc_step_count w (t.levels + 2) t.root t.current_max_size idx t.levels
    show nodeCount (alloc_step w (t.levels + 2) t.root t.current_max_size idx t.levels).1
      ≤ nodeCount t.root + (t.levels - t.levels) + (t.levels + 1)
    omega

/-- Claim C10: `allocate_at idx` changes the allocation status of no other
index: for every `j` distinct from `idx`, `is_allocated j` reads the same
before and after the call, including when the call grows the capacity or
materializes new nodes.  As in C5, `idx` ranges over the domain of the word
type. -/
theorem c10_allocate_at_frame (w : Nat) (t : Tree) (idx j : Nat) (h : TreeOK w t)
    (hidx : idx < 2 ^ w) (hne : j ≠ idx) :
    is_allocated w (allocate_at w t idx) j = is_allocated w t j :=
  allocate_at_frame h idx j hidx hne

/-- Witness for C10 at a concrete input whose call grows the tree. -/
theorem c10_allocate_at_frame_witness :
    is_allocated 8 (allocate_at 8 (mkTree 8) 70) 3 = is_allocated 8 (mkTree 8) 3 :=
  c10_allocate_at_frame 8 (mkTree 8) 70 3 (treeOK_mkTree 8 (by decide)) (by decide)
    (by decide)

end BitmapTree
